import Mathlib

/-!
Verification of the data pipeline of the waste dashboard (`src/app.py`).

The program is a single script over pandas dataframes.  Its data logic is
embedded here as pure list functions:

* `load_data`       — lines 10-16: normalize categories, coerce weights,
                      drop rows with missing fields, cast years to int;
* `df_grouped`      — line 21: sum of weight grouped by (Year, Category);
* `full_index`      — lines 45-48: cross product of the selected year range
                      and the selected category list;
* `filtered_df`     — lines 50-52: the grouped table reindexed against
                      `full_index`, missing keys filled with 0;
* `agg_pie`         — line 62: weight summed per category over `filtered_df`.

Floating point weights are modelled as rationals; the external numeric
parsers of pandas are modelled as oracles attached to each text cell.
-/

/-- Strip of leading and trailing whitespace on the character list of a
string, as Python `str.strip` does. -/
def stripChars (l : List Char) : List Char :=
  ((l.dropWhile Char.isWhitespace).reverse.dropWhile Char.isWhitespace).reverse

/-- Title casing of a character list, as Python `str.title` does on ASCII
text: a letter is uppercased when the previous character is not a letter and
lowercased otherwise.  The boolean argument records whether the previous
character was a letter. -/
def titleChars : List Char → Bool → List Char
  | [], _ => []
  | c :: cs, prevAlpha =>
    (if c.isAlpha then (if prevAlpha then c.toLower else c.toUpper) else c)
      :: titleChars cs c.isAlpha

/-- Line 12 of `app.py`: `df["Category"].str.strip().str.title()` applied to
one category value. -/
def normalizeCategory (s : String) : String :=
  String.mk (titleChars (stripChars s.data) false)

/-- A raw cell of the input table: a missing value (NaN), a numeric value, or
a text value.  What the external pandas parsers would make of a text cell is
carried with the cell: `floatParse` is the result of `pd.to_numeric` on it
(`none` when it does not parse, giving NaN) and `intParse` the result of the
elementwise int conversion done by `astype(int)` (`none` when that conversion
raises). -/
inductive RawVal where
  | missing
  | num (q : ℚ)
  | text (s : String) (floatParse : Option ℚ) (intParse : Option Int)
deriving DecidableEq

/-- One row of the raw input file: the three columns `load_data` touches.
A missing category cell is `none`. -/
structure RawRecord where
  category : Option String
  weight : RawVal
  year : RawVal
deriving DecidableEq

/-- One row of the cleaned dataframe returned by `load_data`. -/
structure CleanRecord where
  category : String
  weight : ℚ
  year : Int
deriving DecidableEq

/-- Line 13 of `app.py`: `pd.to_numeric(·, errors="coerce")` on one cell.
Numeric values pass through, text parses or becomes missing, missing stays
missing. -/
def toNumeric : RawVal → Option ℚ
  | .missing => none
  | .num q => some q
  | .text _ fp _ => fp

/-- The `dropna` test on the untouched `Year` column: only an actually
missing value is NA; a non-numeric text value is not NA and survives. -/
def yearNotNA : RawVal → Bool
  | .missing => false
  | .num _ => true
  | .text _ _ _ => true

/-- Truncation toward zero, the rounding `astype(int)` applies to a float. -/
def ratTrunc (q : ℚ) : Int := Int.tdiv q.num q.den

/-- Line 15 of `app.py`, elementwise: `astype(int)` on one year value.  A
float truncates toward zero, a text value converts via the attached int
parse or fails, a missing value fails. -/
def castInt : RawVal → Option Int
  | .missing => none
  | .num q => some (ratTrunc q)
  | .text _ _ ip => ip

/-- One row after the column rewrites of lines 12-13: category normalized
(`none` = NaN), weight coerced (`none` = NaN), year untouched. -/
structure MidRecord where
  category : Option String
  weight : Option ℚ
  year : RawVal

/-- Lines 12-13 of `app.py` applied to one row. -/
def midStep (r : RawRecord) : MidRecord :=
  ⟨r.category.map normalizeCategory, toNumeric r.weight, r.year⟩

/-- Line 14 of `app.py`: the row test of
`dropna(subset=["Weight (lbs)", "Year", "Category"])`. -/
def keepRow (m : MidRecord) : Bool :=
  m.weight.isSome && yearNotNA m.year && m.category.isSome

/-- Line 15 of `app.py`: `df["Year"] = df["Year"].astype(int)`, which casts
every remaining year value and raises on the first one that does not
convert. -/
def castYears : List MidRecord → Except String (List CleanRecord)
  | [] => .ok []
  | m :: ms =>
    match castInt m.year with
    | some y =>
        (castYears ms).map (fun l => ⟨m.category.getD "", m.weight.getD 0, y⟩ :: l)
    | none => .error ("invalid literal for int")

/-- Lines 10-16 of `app.py`: the whole cleaning pipeline of `load_data`. -/
def load_data (raws : List RawRecord) : Except String (List CleanRecord) :=
  castYears (((raws.map midStep).filter keepRow))

/-- Lexicographic strict comparison of character lists. -/
def strLtb : List Char → List Char → Bool
  | [], [] => false
  | [], _ :: _ => true
  | _ :: _, [] => false
  | a :: as, b :: bs => if a < b then true else if a = b then strLtb as bs else false

/-- Lexicographic comparison of strings, used for the sorted group keys that
pandas `groupby` produces. -/
def strLeb (s t : String) : Bool := s == t || strLtb s.data t.data

/-- Lexicographic comparison of (Year, Category) keys. -/
def keyLeb (a b : Int × String) : Bool :=
  decide (a.1 < b.1) || (decide (a.1 = b.1) && strLeb a.2 b.2)

/-- The distinct (Year, Category) keys occurring in the cleaned records. -/
def recordKeys (records : List CleanRecord) : List (Int × String) :=
  (records.map (fun r => (r.year, r.category))).dedup

/-- Total weight of the records with the given (Year, Category) key. -/
def sumWeights (records : List CleanRecord) (k : Int × String) : ℚ :=
  ((records.filter (fun r => r.year = k.1 ∧ r.category = k.2)).map CleanRecord.weight).sum

/-- Line 21 of `app.py`:
`df.groupby(["Year", "Category"])["Weight (lbs)"].sum().reset_index()` — the
distinct keys of the records, sorted as pandas sorts group keys, each paired
with its summed weight. -/
def df_grouped (records : List CleanRecord) : List ((Int × String) × ℚ) :=
  (List.insertionSort (fun a b => keyLeb a b = true) (recordKeys records)).map
    (fun k => (k, sumWeights records k))

/-- Line 24 of `app.py`: `range(min_year, max_year + 1)` as a list of
integers, ascending, empty when the range is inverted. -/
def yearRange (y0 y1 : Int) : List Int :=
  (List.range (y1 + 1 - y0).toNat).map (fun (i : Nat) => y0 + (i : Int))

/-- Lines 45-48 of `app.py`:
`pd.MultiIndex.from_product([range(min_year, max_year + 1), selected_categories])`
— years in ascending order, and inside each year the categories in the order
of the selection list. -/
def full_index (y0 y1 : Int) (cats : List String) : List (Int × String) :=
  (yearRange y0 y1).flatMap (fun y => cats.map (fun c => (y, c)))

/-- The `.reindex(full_index, fill_value=0)` lookup of one key: the summed
value when the key is present in the grouped table, 0 otherwise. -/
def reindexValue (records : List CleanRecord) (k : Int × String) : ℚ :=
  match List.lookup k (df_grouped records) with
  | some v => v
  | none => 0

/-- Lines 50-52 of `app.py`: `filtered_df` — one row per key of
`full_index`, in its order, holding the reindexed weight. -/
def filtered_df (records : List CleanRecord) (y0 y1 : Int) (cats : List String) :
    List (Int × String × ℚ) :=
  (full_index y0 y1 cats).map (fun k => (k.1, k.2, reindexValue records k))

/-- Total weight of the rows of the aggregate table carrying the given
category. -/
def catSum (rows : List (Int × String × ℚ)) (c : String) : ℚ :=
  ((rows.filter (fun r => r.2.1 = c)).map (fun r => r.2.2)).sum

/-- Line 62 of `app.py`:
`filtered_df.groupby("Category")["Weight (lbs)"].sum().reset_index()` — the
distinct categories of the table, sorted, each with its summed weight. -/
def agg_pie (rows : List (Int × String × ℚ)) : List (String × ℚ) :=
  (List.insertionSort (fun a b => strLeb a b = true) ((rows.map (fun r => r.2.1)).dedup)).map
    (fun c => (c, catSum rows c))

/-- The clean records of the worked example in the specification. -/
def exRecords : List CleanRecord :=
  [⟨"Paper", 10, 2020⟩, ⟨"Paper", 5, 2020⟩, ⟨"Glass", 3, 2021⟩]

/-! Basic facts about `yearRange` and `full_index`. -/

theorem mem_yearRange {y0 y1 y : Int} : y ∈ yearRange y0 y1 ↔ y0 ≤ y ∧ y ≤ y1 := by
  rw [yearRange, List.mem_map]
  constructor
  · rintro ⟨i, hi, rfl⟩
    rw [List.mem_range] at hi
    omega
  · rintro ⟨h0, h1⟩
    refine ⟨(y - y0).toNat, ?_, by omega⟩
    rw [List.mem_range]
    omega

theorem nodup_yearRange (y0 y1 : Int) : (yearRange y0 y1).Nodup := by
  rw [yearRange]
  refine List.Nodup.map ?_ (List.nodup_range _)
  intro a b h
  have h2 : y0 + (a : Int) = y0 + (b : Int) := h
  omega

theorem length_yearRange (y0 y1 : Int) : (yearRange y0 y1).length = (y1 + 1 - y0).toNat := by
  rw [yearRange, List.length_map, List.length_range]

theorem yearRange_getElem? {y0 y1 : Int} {i : Nat} (h : i < (y1 + 1 - y0).toNat) :
    (yearRange y0 y1)[i]? = some (y0 + (i : Int)) := by
  rw [yearRange, List.getElem?_map, List.getElem?_range h]
  rfl

theorem mem_full_index {y0 y1 : Int} {cats : List String} {y : Int} {c : String} :
    (y, c) ∈ full_index y0 y1 cats ↔ (y0 ≤ y ∧ y ≤ y1) ∧ c ∈ cats := by
  simp only [full_index, List.mem_flatMap, List.mem_map, Prod.mk.injEq]
  constructor
  · rintro ⟨a, ha, c', hc', rfl, rfl⟩
    exact ⟨mem_yearRange.mp ha, hc'⟩
  · rintro ⟨hy, hc⟩
    exact ⟨y, mem_yearRange.mpr hy, c, hc, rfl, rfl⟩

theorem length_full_index (y0 y1 : Int) (cats : List String) :
    (full_index y0 y1 cats).length = (y1 + 1 - y0).toNat * cats.length := by
  rw [full_index, List.length_flatMap]
  have h : List.map (List.length ∘ fun y => List.map (fun c => (y, c)) cats) (yearRange y0 y1)
      = List.map (fun _ => cats.length) (yearRange y0 y1) := by
    refine List.map_congr_left ?_
    intro y _
    simp [Function.comp]
  rw [h, List.map_const', List.sum_replicate, smul_eq_mul, length_yearRange]

theorem nodup_full_index {y0 y1 : Int} {cats : List String} (h : cats.Nodup) :
    (full_index y0 y1 cats).Nodup := by
  rw [full_index, List.nodup_flatMap]
  constructor
  · intro y _
    refine List.Nodup.map ?_ h
    intro a b hab
    exact ((Prod.mk.injEq _ _ _ _).mp hab).2
  · refine List.Pairwise.imp ?_ (nodup_yearRange y0 y1)
    intro y y' hne p hp hp'
    obtain ⟨c, _, rfl⟩ := List.mem_map.mp hp
    obtain ⟨c', _, heq⟩ := List.mem_map.mp hp'
    exact hne ((Prod.mk.injEq _ _ _ _).mp heq).1.symm

/-! The reindex lookup: looking a key up in the grouped table gives exactly
the sum of the weights of the records carrying that key. -/

theorem lookup_map_graph {α β : Type} [BEq α] [LawfulBEq α] (f : α → β) (k : α) :
    ∀ keys : List α,
      List.lookup k (keys.map (fun k' => (k', f k'))) =
        if k ∈ keys then some (f k) else none
  | [] => by simp [List.lookup]
  | k' :: ks => by
    by_cases h : k = k'
    · subst h
      simp [List.lookup]
    · have hb : (k == k') = false := beq_false_of_ne h
      simp only [List.map_cons, List.lookup, hb, List.mem_cons]
      rw [lookup_map_graph f k ks]
      by_cases hm : k ∈ ks
      · simp [hm]
      · simp [hm, h]

theorem sumWeights_eq_zero {records : List CleanRecord} {k : Int × String}
    (h : k ∉ recordKeys records) : sumWeights records k = 0 := by
  rw [sumWeights]
  have hf : records.filter (fun r => r.year = k.1 ∧ r.category = k.2) = [] := by
    rw [List.filter_eq_nil_iff]
    intro r hr hpr
    apply h
    rw [recordKeys, List.mem_dedup]
    have hp : r.year = k.1 ∧ r.category = k.2 := by
      simpa using hpr
    refine List.mem_map.mpr ⟨r, hr, ?_⟩
    rw [hp.1, hp.2]
  rw [hf]
  rfl

theorem reindexValue_eq_sumWeights (records : List CleanRecord) (k : Int × String) :
    reindexValue records k = sumWeights records k := by
  rw [reindexValue, df_grouped, lookup_map_graph]
  by_cases h : k ∈ List.insertionSort (fun a b => keyLeb a b = true) (recordKeys records)
  · rw [if_pos h]
  · rw [if_neg h]
    have hk : k ∉ recordKeys records := by
      intro hmem
      exact h (((List.perm_insertionSort (fun a b => keyLeb a b = true)
        (recordKeys records)).mem_iff).mpr hmem)
    exact (sumWeights_eq_zero hk).symm

/-! Summation helpers. -/

theorem sum_map_add {α : Type} (l : List α) (f g : α → ℚ) :
    (l.map (fun x => f x + g x)).sum = (l.map f).sum + (l.map g).sum := by
  induction l with
  | nil => simp
  | cons a l ih =>
    simp only [List.map_cons, List.sum_cons, ih]
    ring

theorem sum_map_ite_eq {α : Type} [DecidableEq α] {keys : List α} (hnd : keys.Nodup)
    {a : α} (ha : a ∈ keys) (w : ℚ) :
    (keys.map (fun c => if a = c then w else 0)).sum = w := by
  induction keys with
  | nil => cases ha
  | cons k ks ih =>
    rcases List.mem_cons.mp ha with h | h
    · subst h
      simp only [List.map_cons, List.sum_cons, if_pos rfl]
      have hz : ∀ c ∈ ks, (if a = c then w else 0) = 0 := by
        intro c hc
        have hne : a ≠ c := fun he => (List.nodup_cons.mp hnd).1 (he ▸ hc)
        rw [if_neg hne]
      rw [List.map_congr_left hz]
      simp
    · have hne : a ≠ k := fun he => (List.nodup_cons.mp hnd).1 (he ▸ h)
      simp only [List.map_cons, List.sum_cons, if_neg hne]
      rw [ih (List.nodup_cons.mp hnd).2 h]
      simp

/-- Partition of a sum: when `keys` has no duplicate and covers the key of
every row, summing the per-key totals gives the grand total. -/
theorem sum_partition {α κ : Type} [DecidableEq κ] (key : α → κ) (val : α → ℚ)
    (keys : List κ) (hnd : keys.Nodup) :
    ∀ rows : List α, (∀ x ∈ rows, key x ∈ keys) →
      (keys.map (fun c => ((rows.filter (fun x => key x = c)).map val).sum)).sum
        = (rows.map val).sum := by
  intro rows
  induction rows with
  | nil =>
    intro _
    simp
  | cons r rs ih =>
    intro hcov
    have hcov' : ∀ x ∈ rs, key x ∈ keys := fun x hx => hcov x (List.mem_cons_of_mem _ hx)
    have hr : key r ∈ keys := hcov r (List.mem_cons_self _ _)
    have step : ∀ c ∈ keys,
        (((r :: rs).filter (fun x => key x = c)).map val).sum
          = (if key r = c then val r else 0)
            + ((rs.filter (fun x => key x = c)).map val).sum := by
      intro c _
      by_cases h : key r = c
      · simp [List.filter_cons, h]
      · simp [List.filter_cons, h]
    rw [List.map_congr_left step, sum_map_add, sum_map_ite_eq hnd hr, ih hcov']
    simp

/-! Key structure of `filtered_df`. -/

theorem filtered_df_keys (records : List CleanRecord) (y0 y1 : Int) (cats : List String) :
    (filtered_df records y0 y1 cats).map (fun r => (r.1, r.2.1)) = full_index y0 y1 cats := by
  rw [filtered_df, List.map_map]
  exact List.map_id _

theorem flatMap_blocks_getElem? {α β : Type} (f : α → List β) (k : Nat)
    (hk : ∀ y, (f y).length = k) :
    ∀ (ys : List α) (i j : Nat), j < k → (hi : i < ys.length) →
      (ys.flatMap f)[i * k + j]? = (f (ys.get ⟨i, hi⟩))[j]?
  | [], i, j, _, hi => absurd hi (by simp)
  | y :: ys, 0, j, hj, _ => by
    rw [List.flatMap_cons, List.getElem?_append]
    rw [if_pos (by rw [hk y]; omega)]
    have hz : 0 * k + j = j := by omega
    rw [hz]
    rfl
  | y :: ys, i + 1, j, hj, hi => by
    rw [List.flatMap_cons, List.getElem?_append]
    rw [if_neg (by rw [hk y]; push_neg; calc k ≤ i * k + k := by omega
        _ = (i + 1) * k := by ring
        _ ≤ (i + 1) * k + j := by omega)]
    have harith : (i + 1) * k + j - (f y).length = i * k + j := by
      rw [hk y]; ring_nf; omega
    rw [harith]
    have hi' : i < ys.length := by simpa using hi
    rw [flatMap_blocks_getElem? f k hk ys i j hj hi']
    rfl

theorem full_index_getElem? {y0 y1 : Int} {cats : List String} {i j : Nat}
    (hi : i < (y1 + 1 - y0).toNat) (hj : j < cats.length) :
    (full_index y0 y1 cats)[i * cats.length + j]?
      = some (y0 + (i : Int), cats.get ⟨j, hj⟩) := by
  have hlen : i < (yearRange y0 y1).length := by rw [length_yearRange]; exact hi
  rw [full_index, flatMap_blocks_getElem? _ cats.length (fun y => List.length_map _ _)
    (yearRange y0 y1) i j hj hlen]
  have hy : (yearRange y0 y1).get ⟨i, hlen⟩ = y0 + (i : Int) := by
    have h1 : (yearRange y0 y1)[i]? = some ((yearRange y0 y1).get ⟨i, hlen⟩) :=
      List.getElem?_eq_getElem hlen
    have h2 := @yearRange_getElem? y0 y1 i hi
    rw [h1] at h2
    exact Option.some.inj h2
  rw [hy, List.getElem?_map, List.getElem?_eq_getElem hj]
  rfl

/-- C1: for any clean records, any year range with y0 ≤ y1 and any
duplicate-free selected category list, the aggregate table `filtered_df` has
exactly (y1 - y0 + 1) × |C| rows, its (Year, Category) keys are pairwise
distinct, and they cover exactly the cross product of the range and the
selection — no duplicates, no gaps. -/
theorem aggregate_table_complete (records : List CleanRecord) (y0 y1 : Int)
    (cats : List String) (hy : y0 ≤ y1) (hnd : cats.Nodup) :
    (filtered_df records y0 y1 cats).length = ((y1 - y0).toNat + 1) * cats.length ∧
    ((filtered_df records y0 y1 cats).map (fun r => (r.1, r.2.1))).Nodup ∧
    (∀ (y : Int) (c : String),
      (y, c) ∈ (filtered_df records y0 y1 cats).map (fun r => (r.1, r.2.1)) ↔
        ((y0 ≤ y ∧ y ≤ y1) ∧ c ∈ cats)) := by
  refine ⟨?_, ?_, ?_⟩
  · rw [filtered_df, List.length_map, length_full_index]
    have h : (y1 + 1 - y0).toNat = (y1 - y0).toNat + 1 := by omega
    rw [h]
  · rw [filtered_df_keys]
    exact nodup_full_index hnd
  · intro y c
    rw [filtered_df_keys]
    exact mem_full_index

theorem aggregate_table_complete_witness :
    ((2020 : Int) ≤ 2021 ∧ (["Paper", "Glass"] : List String).Nodup) ∧
    (filtered_df exRecords 2020 2021 ["Paper", "Glass"]).length = 4 :=
  ⟨⟨by decide, by decide⟩,
    (aggregate_table_complete exRecords 2020 2021 ["Paper", "Glass"]
      (by decide) (by decide)).1⟩

/-- C2: a (Year, Category) pair inside the selected grid that matches no
clean record still appears in the aggregate table, as a row with weight 0
rather than being omitted. -/
theorem zero_fill (records : List CleanRecord) (y0 y1 y : Int) (cats : List String)
    (c : String) (hy0 : y0 ≤ y) (hy1 : y ≤ y1) (hc : c ∈ cats)
    (hnone : ∀ r ∈ records, ¬(r.year = y ∧ r.category = c)) :
    (y, c, (0 : ℚ)) ∈ filtered_df records y0 y1 cats := by
  rw [filtered_df]
  refine List.mem_map.mpr ⟨(y, c), mem_full_index.mpr ⟨⟨hy0, hy1⟩, hc⟩, ?_⟩
  have hz : sumWeights records (y, c) = 0 := by
    rw [sumWeights]
    have hf : records.filter (fun r => r.year = (y, c).1 ∧ r.category = (y, c).2) = [] := by
      rw [List.filter_eq_nil_iff]
      intro r hr hpr
      exact hnone r hr (by simpa using hpr)
    rw [hf]
    rfl
  rw [reindexValue_eq_sumWeights, hz]

theorem zero_fill_witness :
    (2020, "Glass", (0 : ℚ)) ∈ filtered_df exRecords 2020 2021 ["Paper", "Glass"] :=
  zero_fill exRecords 2020 2021 2020 ["Paper", "Glass"] "Glass"
    (by decide) (by decide) (by decide) (by decide)

/-- C8: when the selected range is inverted (minYear > maxYear) the
aggregate table is empty rather than an error, for any non-empty category
selection. -/
theorem inverted_range_empty (records : List CleanRecord) (y0 y1 : Int)
    (cats : List String) (h : y1 < y0) (_hne : cats ≠ []) :
    filtered_df records y0 y1 cats = [] := by
  have hy : yearRange y0 y1 = [] := by
    rw [yearRange]
    have hz : (y1 + 1 - y0).toNat = 0 := by omega
    rw [hz]
    rfl
  rw [filtered_df, full_index, hy]
  rfl

theorem inverted_range_empty_witness :
    filtered_df exRecords 2025 2020 ["Paper"] = [] :=
  inverted_range_empty exRecords 2025 2020 ["Paper"] (by decide) (by decide)

/-- C9: the rows of the aggregate table come in a fixed enumeration order:
the row at position i * |C| + j is the one for the (i+1)-st year of the range
(years ascending from minYear) and the (j+1)-st category of the selection
list, so every downstream view receives rows in this order. -/
theorem row_order (records : List CleanRecord) (y0 y1 : Int) (cats : List String)
    (i j : Nat) (hi : i < (y1 + 1 - y0).toNat) (hj : j < cats.length) :
    (filtered_df records y0 y1 cats)[i * cats.length + j]?
      = some (y0 + (i : Int), cats.get ⟨j, hj⟩,
          reindexValue records (y0 + (i : Int), cats.get ⟨j, hj⟩)) := by
  rw [filtered_df, List.getElem?_map, full_index_getElem? hi hj]
  rfl

theorem row_order_witness :
    (filtered_df exRecords 2020 2021 ["Paper", "Glass"])[3]?
      = some (2021, "Glass", reindexValue exRecords (2021, "Glass")) := by
  have h := row_order exRecords 2020 2021 ["Paper", "Glass"] 1 1 (by decide) (by decide)
  exact h

/-! Further summation helpers for the conservation claims. -/

theorem sum_filter_eq_sum_ite {α : Type} (p : α → Prop) [DecidablePred p] (v : α → ℚ) :
    ∀ l : List α,
      ((l.filter (fun x => p x)).map v).sum = (l.map (fun x => if p x then v x else 0)).sum
  | [] => rfl
  | a :: l => by
    rw [List.filter_cons]
    by_cases h : p a
    · rw [if_pos (by simpa using h), List.map_cons, List.sum_cons, List.map_cons,
        List.sum_cons, if_pos h, sum_filter_eq_sum_ite p v l]
    · rw [if_neg (by simpa using h), List.map_cons, List.sum_cons, if_neg h,
        sum_filter_eq_sum_ite p v l, zero_add]

theorem sum_map_ite_key {κ : Type} [DecidableEq κ] {keys : List κ} (hnd : keys.Nodup)
    {c : κ} (hc : c ∈ keys) (v : κ → ℚ) :
    (keys.map (fun x => if x = c then v x else 0)).sum = v c := by
  induction keys with
  | nil => cases hc
  | cons k ks ih =>
    rcases List.mem_cons.mp hc with h | h
    · subst h
      simp only [List.map_cons, List.sum_cons, if_pos rfl]
      have hz : ∀ x ∈ ks, (if x = c then v x else 0) = 0 := by
        intro x hx
        have hne : x ≠ c := fun he => (List.nodup_cons.mp hnd).1 (he ▸ hx)
        rw [if_neg hne]
      rw [List.map_congr_left hz]
      simp
    · have hne : k ≠ c := fun he => (List.nodup_cons.mp hnd).1 (he ▸ h)
      simp only [List.map_cons, List.sum_cons, if_neg hne]
      rw [ih (List.nodup_cons.mp hnd).2 h]
      simp

theorem sum_map_flatMap {α β : Type} (v : β → ℚ) (f : α → List β) :
    ∀ ys : List α,
      ((ys.flatMap f).map v).sum = (ys.map (fun y => ((f y).map v).sum)).sum
  | [] => rfl
  | y :: ys => by
    rw [List.flatMap_cons, List.map_append, List.sum_append, List.map_cons, List.sum_cons,
      sum_map_flatMap v f ys]

/-! Conservation of weight through grouping and reindexing. -/

theorem catSum_filtered (records : List CleanRecord) (y0 y1 : Int) (cats : List String)
    {c : String} (hc : c ∈ cats) (hnd : cats.Nodup) :
    catSum (filtered_df records y0 y1 cats) c
      = ((yearRange y0 y1).map (fun y => sumWeights records (y, c))).sum := by
  rw [catSum, sum_filter_eq_sum_ite (fun r : Int × String × ℚ => r.2.1 = c) (fun r => r.2.2),
    filtered_df, List.map_map, full_index, sum_map_flatMap]
  refine congrArg List.sum (List.map_congr_left ?_)
  intro y _
  rw [List.map_map]
  have h : (((fun x : Int × String × ℚ => if x.2.1 = c then x.2.2 else 0) ∘
        fun k : Int × String => (k.1, k.2, reindexValue records k)) ∘ fun c2 => (y, c2))
      = fun c2 => if c2 = c then reindexValue records (y, c2) else 0 := rfl
  rw [h, sum_map_ite_key hnd hc (fun c2 => reindexValue records (y, c2)),
    reindexValue_eq_sumWeights]

theorem sum_years_eq_filter (records : List CleanRecord) (y0 y1 : Int) (c : String) :
    ((yearRange y0 y1).map (fun y => sumWeights records (y, c))).sum
      = ((records.filter (fun r => r.category = c ∧ y0 ≤ r.year ∧ r.year ≤ y1)).map
          CleanRecord.weight).sum := by
  have hcov : ∀ r ∈ records.filter (fun r => r.category = c ∧ y0 ≤ r.year ∧ r.year ≤ y1),
      r.year ∈ yearRange y0 y1 := by
    intro r hr
    have hp : r.category = c ∧ y0 ≤ r.year ∧ r.year ≤ y1 := by
      simpa using List.of_mem_filter hr
    exact mem_yearRange.mpr ⟨hp.2.1, hp.2.2⟩
  have hpart := sum_partition CleanRecord.year CleanRecord.weight (yearRange y0 y1)
    (nodup_yearRange y0 y1)
    (records.filter (fun r => r.category = c ∧ y0 ≤ r.year ∧ r.year ≤ y1)) hcov
  rw [← hpart]
  refine congrArg List.sum (List.map_congr_left ?_)
  intro y hy
  have hy' : y0 ≤ y ∧ y ≤ y1 := mem_yearRange.mp hy
  rw [sumWeights, List.filter_filter]
  refine congrArg List.sum (congrArg (List.map CleanRecord.weight) ?_)
  refine List.filter_congr ?_
  intro r _
  show decide (r.year = (y, c).1 ∧ r.category = (y, c).2)
      = (decide (CleanRecord.year r = y) && decide (r.category = c ∧ y0 ≤ r.year ∧ r.year ≤ y1))
  rw [← Bool.decide_and]
  refine decide_eq_decide.mpr ?_
  constructor
  · rintro ⟨h1, h2⟩
    exact ⟨h1, h2, h1 ▸ hy'.1, h1 ▸ hy'.2⟩
  · rintro ⟨h1, h2, _, _⟩
    exact ⟨h1, h2⟩

theorem filter_range_comm (records : List CleanRecord) (y0 y1 : Int) (c : String) :
    records.filter (fun r => r.category = c ∧ y0 ≤ r.year ∧ r.year ≤ y1)
      = (records.filter (fun r => y0 ≤ r.year ∧ r.year ≤ y1)).filter
          (fun r => r.category = c) := by
  rw [List.filter_filter]
  refine List.filter_congr ?_
  intro r _
  show decide (r.category = c ∧ y0 ≤ r.year ∧ r.year ≤ y1)
      = (decide (r.category = c) && decide (y0 ≤ r.year ∧ r.year ≤ y1))
  rw [← Bool.decide_and]

/-- C3: for every selected category c, summing weight over the aggregate
table rows carrying c equals summing weight over the clean records with
category c whose year lies in the selected range; and when the selection
covers every category occurring in the records, the whole-table total equals
the total weight of the records whose year lies in the range. -/
theorem weight_conservation (records : List CleanRecord) (y0 y1 : Int)
    (cats : List String) (c : String) (hc : c ∈ cats) (hnd : cats.Nodup) :
    catSum (filtered_df records y0 y1 cats) c
        = ((records.filter (fun r => r.category = c ∧ y0 ≤ r.year ∧ r.year ≤ y1)).map
            CleanRecord.weight).sum ∧
    ((∀ r ∈ records, r.category ∈ cats) →
      ((filtered_df records y0 y1 cats).map (fun r => r.2.2)).sum
        = ((records.filter (fun r => y0 ≤ r.year ∧ r.year ≤ y1)).map
            CleanRecord.weight).sum) := by
  have part1 : ∀ c2 ∈ cats, catSum (filtered_df records y0 y1 cats) c2
      = ((records.filter (fun r => r.category = c2 ∧ y0 ≤ r.year ∧ r.year ≤ y1)).map
          CleanRecord.weight).sum := by
    intro c2 hc2
    rw [catSum_filtered records y0 y1 cats hc2 hnd, sum_years_eq_filter]
  refine ⟨part1 c hc, ?_⟩
  intro hall
  have hcov1 : ∀ r ∈ filtered_df records y0 y1 cats, r.2.1 ∈ cats := by
    intro r hr
    rw [filtered_df] at hr
    obtain ⟨k, hk, rfl⟩ := List.mem_map.mp hr
    obtain ⟨ky, kc⟩ := k
    exact (mem_full_index.mp hk).2
  have htot1 := sum_partition (fun r : Int × String × ℚ => r.2.1) (fun r => r.2.2)
    cats hnd (filtered_df records y0 y1 cats) hcov1
  rw [← htot1]
  have hcov2 : ∀ r ∈ records.filter (fun r => y0 ≤ r.year ∧ r.year ≤ y1),
      r.category ∈ cats := fun r hr => hall r (List.mem_of_mem_filter hr)
  have htot2 := sum_partition CleanRecord.category CleanRecord.weight cats hnd
    (records.filter (fun r => y0 ≤ r.year ∧ r.year ≤ y1)) hcov2
  rw [← htot2]
  refine congrArg List.sum (List.map_congr_left ?_)
  intro c2 hc2
  have h1 := part1 c2 hc2
  rw [catSum] at h1
  rw [h1, filter_range_comm]

theorem weight_conservation_witness :
    ("Paper" ∈ (["Paper", "Glass"] : List String)
        ∧ (["Paper", "Glass"] : List String).Nodup
        ∧ (∀ r ∈ exRecords, r.category ∈ (["Paper", "Glass"] : List String))) ∧
    catSum (filtered_df exRecords 2020 2021 ["Paper", "Glass"]) "Paper"
        = ((exRecords.filter
            (fun r => r.category = "Paper" ∧ 2020 ≤ r.year ∧ r.year ≤ 2021)).map
            CleanRecord.weight).sum ∧
    ((filtered_df exRecords 2020 2021 ["Paper", "Glass"]).map (fun r => r.2.2)).sum
        = ((exRecords.filter (fun r => 2020 ≤ r.year ∧ r.year ≤ 2021)).map
            CleanRecord.weight).sum := by
  have h := weight_conservation exRecords 2020 2021 ["Paper", "Glass"] "Paper"
    (by decide) (by decide)
  exact ⟨⟨by decide, by decide, by decide⟩, h.1, h.2 (by decide)⟩

/-- C7: an empty category selection yields an aggregate table with 0 rows
for any year range, and the empty dataset propagates through the pie
derivation (the bar, line, point and table views consume `filtered_df`
itself, so they receive the same empty list). -/
theorem empty_selection (records : List CleanRecord) (y0 y1 : Int) :
    filtered_df records y0 y1 [] = [] ∧
    agg_pie (filtered_df records y0 y1 []) = [] := by
  have h : filtered_df records y0 y1 [] = [] := by
    rw [filtered_df, full_index]
    have hz : (yearRange y0 y1).flatMap (fun y => ([] : List String).map (fun c => (y, c)))
        = [] := by
      simp
    rw [hz]
    rfl
  refine ⟨h, ?_⟩
  rw [h]
  rfl

/-- C10: each entry of the pie aggregate carries exactly the summed weight of
its category's rows in the aggregate table, and therefore the total of the
pie aggregate equals the total weight of the table: the proportion view
conserves the grand total. -/
theorem pie_conserves_total (rows : List (Int × String × ℚ)) :
    (∀ p ∈ agg_pie rows, p.2 = catSum rows p.1) ∧
    ((agg_pie rows).map Prod.snd).sum = (rows.map (fun r => r.2.2)).sum := by
  constructor
  · intro p hp
    rw [agg_pie] at hp
    obtain ⟨c, _, rfl⟩ := List.mem_map.mp hp
    rfl
  · rw [agg_pie, List.map_map]
    have hperm := List.perm_insertionSort (fun a b => strLeb a b = true)
      ((rows.map (fun r => r.2.1)).dedup)
    have hnd : (List.insertionSort (fun a b => strLeb a b = true)
        ((rows.map (fun r => r.2.1)).dedup)).Nodup :=
      (hperm.nodup_iff).mpr (List.nodup_dedup _)
    have hcov : ∀ r ∈ rows, r.2.1 ∈ List.insertionSort (fun a b => strLeb a b = true)
        ((rows.map (fun r => r.2.1)).dedup) := by
      intro r hr
      rw [hperm.mem_iff, List.mem_dedup]
      exact List.mem_map.mpr ⟨r, hr, rfl⟩
    exact sum_partition (fun r : Int × String × ℚ => r.2.1) (fun r => r.2.2) _ hnd rows hcov

theorem pie_conserves_total_witness :
    (∀ p ∈ agg_pie [((2020 : Int), "A", (7 : ℚ))],
        p.2 = catSum [((2020 : Int), "A", (7 : ℚ))] p.1) ∧
    ((agg_pie [((2020 : Int), "A", (7 : ℚ))]).map Prod.snd).sum
        = ([((2020 : Int), "A", (7 : ℚ))].map (fun r => r.2.2)).sum :=
  pie_conserves_total [((2020 : Int), "A", (7 : ℚ))]

/-- C6: the loader's category normalization strips surrounding whitespace
and title-cases, so "paper", " Paper" and "PAPER " all collapse to the
canonical value "Paper". -/
theorem normalization_examples :
    normalizeCategory "paper" = "Paper" ∧ normalizeCategory " Paper" = "Paper" ∧
    normalizeCategory "PAPER " = "Paper" := by
  refine ⟨?_, ?_, ?_⟩ <;> rfl

/-- Test used by the amended totality claim: does a raw cell hold a text
value (as opposed to a numeric or missing one)? -/
def isTextVal : RawVal → Bool
  | .missing => false
  | .num _ => false
  | .text _ _ _ => true

theorem castYears_ok : ∀ ms : List MidRecord,
    (∀ m ∈ ms, (castInt m.year).isSome = true) → ∃ l, castYears ms = Except.ok l
  | [], _ => ⟨[], rfl⟩
  | m :: ms, h => by
    obtain ⟨y, hy⟩ := Option.isSome_iff_exists.mp (h m (List.mem_cons_self _ _))
    obtain ⟨l, hl⟩ := castYears_ok ms (fun m' hm' => h m' (List.mem_cons_of_mem _ hm'))
    refine ⟨⟨m.category.getD "", m.weight.getD 0, y⟩ :: l, ?_⟩
    simp only [castYears, hy, hl]
    rfl

/-- C4 counterexample: a record whose year is a non-numeric text value (and
whose weight and category are fine) is not dropped — only truly missing
values are — and the subsequent int cast of the Year column fails, so
`load_data` errors instead of excluding the record. -/
theorem year_cast_error :
    load_data [⟨some "Paper", RawVal.num 10, RawVal.text "n/a" none none⟩]
      = Except.error ("invalid literal for int") := rfl

/-- C4 (amended): the loader drops each record whose weight, year or
category is missing after coercion, and the cast of Year to integer cannot
fail as long as no year cell holds a text value: on such inputs `load_data`
is total.  (A non-numeric text year, however, survives `dropna` and makes
the cast raise, as the counterexample shows.) -/
theorem load_data_total_of_no_text_years (raws : List RawRecord)
    (h : ∀ r ∈ raws, isTextVal r.year = false) :
    ∃ l, load_data raws = Except.ok l := by
  rw [load_data]
  refine castYears_ok _ ?_
  intro m hm
  have hkeep : keepRow m = true := List.of_mem_filter hm
  obtain ⟨r, hr, rfl⟩ := List.mem_map.mp (List.mem_of_mem_filter hm)
  have hnotext : isTextVal r.year = false := h r hr
  rw [keepRow] at hkeep
  have hnotna : yearNotNA (midStep r).year = true :=
    ((Bool.and_eq_true _ _).mp ((Bool.and_eq_true _ _).mp hkeep).1).2
  cases hy : r.year with
  | missing =>
    rw [midStep] at hnotna
    rw [hy] at hnotna
    simp [yearNotNA] at hnotna
  | num q =>
    show (castInt (midStep r).year).isSome = true
    rw [midStep]
    rw [hy]
    rfl
  | text s fp ip =>
    rw [hy] at hnotext
    simp [isTextVal] at hnotext

theorem load_data_total_witness :
    (∀ r ∈ [RawRecord.mk (some "paper") (RawVal.num 10) (RawVal.num 2020)],
        isTextVal r.year = false) ∧
    ∃ l, load_data [RawRecord.mk (some "paper") (RawVal.num 10) (RawVal.num 2020)]
        = Except.ok l :=
  ⟨by decide, load_data_total_of_no_text_years _ (by decide)⟩

/-- C5 counterexample: the loader applies no sign check, so a record with a
negative weight passes cleaning unchanged — the resulting clean record
violates the claimed non-negativity of Weight. -/
theorem negative_weight_kept :
    load_data [⟨some "Paper", RawVal.num (-5), RawVal.num 2020⟩]
      = Except.ok [⟨"Paper", -5, 2020⟩] ∧ (CleanRecord.mk "Paper" (-5) 2020).weight < 0 :=
  ⟨rfl, by decide⟩

theorem castYears_mem : ∀ (ms : List MidRecord) (l : List CleanRecord),
    castYears ms = Except.ok l → ∀ cr ∈ l,
      ∃ m ∈ ms, m.category.getD "" = cr.category ∧ m.weight.getD 0 = cr.weight ∧
        castInt m.year = some cr.year
  | [], l, h => by
    intro cr hcr
    simp only [castYears] at h
    cases h
    cases hcr
  | m :: ms, l, h => by
    intro cr hcr
    simp only [castYears] at h
    cases hy : castInt m.year with
    | none =>
      rw [hy] at h
      cases h
    | some y =>
      rw [hy] at h
      cases hms : castYears ms with
      | error e =>
        rw [hms] at h
        cases h
      | ok l2 =>
        rw [hms] at h
        have hl : l = ⟨m.category.getD "", m.weight.getD 0, y⟩ :: l2 :=
          (Except.ok.inj h).symm
        subst hl
        rcases List.mem_cons.mp hcr with hcr2 | hcr2
        · subst hcr2
          exact ⟨m, List.mem_cons_self _ _, rfl, rfl, hy⟩
        · obtain ⟨m2, hm2, h1, h2, h3⟩ := castYears_mem ms l2 hms cr hcr2
          exact ⟨m2, List.mem_cons_of_mem _ hm2, h1, h2, h3⟩

/-- C5 (amended): every clean record returned by a successful load arises
from an input record whose category, weight and year all coerce — records
with a missing or uncoercible field are excluded — but the loader never
checks the sign of the weight, so a clean record's Weight may be negative
(see the counterexample). -/
theorem clean_record_provenance (raws : List RawRecord) (l : List CleanRecord)
    (h : load_data raws = Except.ok l) :
    ∀ cr ∈ l, ∃ r ∈ raws,
      r.category.map normalizeCategory = some cr.category ∧
      toNumeric r.weight = some cr.weight ∧
      castInt r.year = some cr.year := by
  intro cr hcr
  rw [load_data] at h
  obtain ⟨m, hm, h1, h2, h3⟩ := castYears_mem _ l h cr hcr
  have hkeep : keepRow m = true := List.of_mem_filter hm
  obtain ⟨r, hr, rfl⟩ := List.mem_map.mp (List.mem_of_mem_filter hm)
  rw [keepRow] at hkeep
  have hw : (midStep r).weight.isSome = true :=
    ((Bool.and_eq_true _ _).mp ((Bool.and_eq_true _ _).mp hkeep).1).1
  have hcat : (midStep r).category.isSome = true := ((Bool.and_eq_true _ _).mp hkeep).2
  refine ⟨r, hr, ?_, ?_, h3⟩
  · obtain ⟨v, hv⟩ := Option.isSome_iff_exists.mp hcat
    have hveq : v = cr.category := by
      rw [hv] at h1
      simpa using h1
    rw [← hveq]
    exact hv
  · obtain ⟨v, hv⟩ := Option.isSome_iff_exists.mp hw
    have hveq : v = cr.weight := by
      rw [hv] at h2
      simpa using h2
    rw [← hveq]
    exact hv

theorem clean_record_provenance_witness :
    load_data [RawRecord.mk (some " paper ") (RawVal.num 10) (RawVal.num 2020)]
        = Except.ok [CleanRecord.mk "Paper" 10 2020] ∧
    ∃ r ∈ [RawRecord.mk (some " paper ") (RawVal.num 10) (RawVal.num 2020)],
      r.category.map normalizeCategory = some "Paper" ∧
      toNumeric r.weight = some 10 ∧ castInt r.year = some 2020 :=
  have hload : load_data [RawRecord.mk (some " paper ") (RawVal.num 10) (RawVal.num 2020)]
      = Except.ok [CleanRecord.mk "Paper" 10 2020] := rfl
  ⟨hload, clean_record_provenance _ _ hload (CleanRecord.mk "Paper" 10 2020)
    (List.mem_singleton_self _)⟩
